import Mathlib

/-!
Shallow embedding of the qb-audio review console (src/web/src) and proofs
about its specified behaviour.

The repository ships two variants of the application: the plain one in
src/web/src/App.tsx and the cache-enabled one embedded in
src/web/src/components/LoadingButton.tsx (which also imports the jotai
store splitAyahsAtom from ./stores/audioCache, a file absent from the
snapshot).  Definitions suffixed App embed the former, definitions
suffixed LB embed the latter.  JavaScript numbers produced by parseInt
are modelled as Option Int, with none playing the role of NaN.
-/

namespace QbAudio

/-- Model of JavaScript String.prototype.split with a one-character
separator, on the character list of the string: it always returns at
least one (possibly empty) component. -/
def splitChars (sep : Char) : List Char → List (List Char)
  | [] => [[]]
  | c :: rest =>
    match splitChars sep rest with
    | [] => [[]]
    | h :: t => if c = sep then [] :: h :: t else (c :: h) :: t

/-- Value of a list of decimal digit characters. -/
def digitsToNat (ds : List Char) : Nat :=
  ds.foldl (fun a c => 10 * a + (c.toNat - 48)) 0

/-- Longest leading run of decimal digits, as a number; none when the
input does not start with a digit (parseInt returns NaN there). -/
def parseLeadingNat (cs : List Char) : Option Int :=
  let ds := cs.takeWhile Char.isDigit
  if ds.isEmpty then none else some (digitsToNat ds : Nat)

/-- Model of JavaScript parseInt on decimal inputs: leading whitespace is
skipped, an optional sign is honoured, then the longest digit run is
read; none models NaN.  Radix prefixes are out of scope, the identifiers
of this repository being plain decimal. -/
def jsParseInt (cs : List Char) : Option Int :=
  match cs.dropWhile Char.isWhitespace with
  | '-' :: rest => (parseLeadingNat rest).map (fun n => -n)
  | '+' :: rest => parseLeadingNat rest
  | other => parseLeadingNat other

/-- Model of the subtraction used in sort comparators: a NaN result is
clamped to 0 by the sort algorithm, as the ECMAScript SortCompare does. -/
def jsSub : Option Int → Option Int → Int
  | some x, some y => x - y
  | _, _ => 0

/-- Model of the strict inequality test x !== y on numbers: NaN is
unequal to everything, NaN included. -/
def jsNeq : Option Int → Option Int → Bool
  | some x, some y => x != y
  | _, _ => true

/-- Model of the strict equality test x === y on numbers: NaN equals
nothing, NaN included. -/
def jsStrictEqNum : Option Int → Option Int → Bool
  | some x, some y => x == y
  | _, _ => false

/-- The Ayah record fetched from the backend (interface Ayah in
src/web/src/App.tsx).  The word-error rate is only ever tested for
nullness by the code under study, so its numeric payload is modelled as
an integer. -/
structure Ayah where
  id : String
  combined_url : String
  arabic_url : Option String
  english_url : Option String
  source_translation : Option String
  english_transcription : Option String
  «matches» : Option Bool
  wer : Option Int
  forced_approved : Option Bool
deriving DecidableEq

/-- Convenience constructor for concrete test items. -/
def mkAyah (id : String) (m : Option Bool) : Ayah :=
  ⟨id, "http://localhost:8000/audio/" ++ id ++ ".mp3",
    none, none, none, none, m, none, none⟩

/-- Modelled from the spec: the version-cache store
src/web/src/stores/audioCache (the jotai atom splitAyahsAtom imported by
LoadingButton.tsx) is not present in the repository snapshot; only the
importing file and the consumers are.  Spec section 4.1 describes it as a
process-wide mapping from item identifier to a counter, modelled here as
an association list from identifier to counter value. -/
abbrev VersionCache := List (String × Nat)

/-- Modelled from the spec: versionOf(id) returns the current counter
value for id, 0 if unseen. -/
def versionOf : VersionCache → String → Nat
  | [], _ => 0
  | (k, v) :: rest, id => if k = id then v else versionOf rest id

/-- Modelled from the spec: bump(id) increments the counter for id by 1;
an unseen identifier starts implicitly at 0 and so moves to 1. -/
def bump : VersionCache → String → VersionCache
  | [], id => [(id, 1)]
  | (k, v) :: rest, id =>
    if k = id then (k, v + 1) :: rest else (k, v) :: bump rest id

/-- A sequence of bump calls, applied in order; bumps for different
identifiers may be interleaved arbitrarily in the list. -/
def applyBumps (c : VersionCache) : List String → VersionCache
  | [] => c
  | id :: ids => applyBumps (bump c id) ids

/-- The AudioPlayer of src/web/src/App.tsx renders the audio element
with the source URL exactly as given: no version parameter is added. -/
def audioSrcApp (src : String) : String := src

/-- The identifier the cache-enabled AudioPlayer extracts from a media
URL: the last slash-separated component, truncated at the first dot. -/
def urlAyahId (src : String) : String :=
  String.mk ((splitChars '.' ((splitChars '/' src.data).getLastD [])).headD [])

/-- The AudioPlayer of the LoadingButton.tsx variant: it looks the
extracted identifier up in the version cache (an empty, hence falsy,
identifier short-circuits to 0) and appends the version as a query
parameter. -/
def audioSrcLB (cache : VersionCache) (src : String) : String :=
  let ayahId := urlAyahId src
  let version := if ayahId = "" then 0 else versionOf cache ayahId
  src ++ "?v=" ++ toString version

theorem versionOf_bump (c : VersionCache) (i j : String) :
    versionOf (bump c i) j =
      if i = j then versionOf c j + 1 else versionOf c j := by
  induction c with
  | nil =>
    by_cases h : i = j <;> simp [bump, versionOf, h]
  | cons p rest ih =>
    obtain ⟨k, v⟩ := p
    by_cases hk : k = i
    · by_cases hj : i = j
      · subst hk; subst hj; simp [bump, versionOf]
      · subst hk
        simp only [bump, if_pos rfl, versionOf]
        rw [if_neg (fun h => hj h), if_neg hj, if_neg (fun h => hj h)]
    · simp only [bump, if_neg hk, versionOf]
      by_cases hkj : k = j
      · subst hkj
        rw [if_pos rfl, if_pos rfl]
        rw [if_neg (fun h => hk h.symm)]
      · rw [if_neg hkj, if_neg hkj, ih]

/-- C2: for every identifier, a sequence of bump calls increases
versionOf by exactly the number of bumps for that identifier, however
the calls are interleaved with bumps for other identifiers, and the
counter never decreases. -/
theorem version_bump_count (c : VersionCache) (ops : List String) (id : String) :
    versionOf (applyBumps c ops) id = versionOf c id + ops.count id ∧
    versionOf c id ≤ versionOf (applyBumps c ops) id := by
  have key : ∀ (ops : List String) (c : VersionCache) (id : String),
      versionOf (applyBumps c ops) id = versionOf c id + ops.count id := by
    intro ops
    induction ops with
    | nil => intro c id; simp [applyBumps]
    | cons x rest ih =>
      intro c id
      have h := ih (bump c x) id
      simp only [applyBumps] at h ⊢
      rw [h, versionOf_bump, List.count_cons]
      by_cases hx : x = id
      · subst hx; simp; omega
      · simp [hx]
  refine ⟨key ops c id, ?_⟩
  rw [key ops c id]
  omega

/-- C1 counterexample: the App.tsx AudioPlayer renders the media URL
unchanged; in a fresh session (empty version cache, versionOf = 0) the
claimed source would carry the suffix ?v=0, which the rendered source
does not. -/
theorem audio_src_app_counterexample :
    audioSrcApp "http://localhost:8000/audio/2_5.mp3" =
      "http://localhost:8000/audio/2_5.mp3" ∧
    audioSrcApp "http://localhost:8000/audio/2_5.mp3" ≠
      "http://localhost:8000/audio/2_5.mp3" ++ "?v=" ++
        toString (versionOf [] "2_5") :=
  ⟨rfl, by decide⟩

/-- C1 (amended): in the LoadingButton.tsx variant, whenever the
identifier extracted from the media URL is the item's (non-empty)
identifier, the rendered audio source is the URL with ?v= and the
version-cache counter of that identifier appended; and the counter of
any identifier not present in the cache is 0. -/
theorem audio_src_lb_version :
    (∀ (cache : VersionCache) (item : Ayah) (url : String),
        urlAyahId url = item.id → item.id ≠ "" →
        audioSrcLB cache url =
          url ++ "?v=" ++ toString (versionOf cache item.id)) ∧
    (∀ (cache : VersionCache) (id : String),
        (∀ p ∈ cache, p.1 ≠ id) → versionOf cache id = 0) := by
  constructor
  · intro cache item url hkey hne
    simp only [audioSrcLB]
    rw [hkey, if_neg hne]
  · intro cache id h
    induction cache with
    | nil => rfl
    | cons p rest ih =>
      obtain ⟨k, v⟩ := p
      have hk : k ≠ id := h (k, v) (by simp)
      simp only [versionOf, if_neg hk]
      exact ih (fun q hq => h q (by simp [hq]))

theorem audio_src_lb_version_witness :
    urlAyahId "http://localhost:8000/audio/2_5.mp3" = (mkAyah "2_5" none).id ∧
    (mkAyah "2_5" none).id ≠ "" ∧
    audioSrcLB [("2_5", 3)] "http://localhost:8000/audio/2_5.mp3" =
      "http://localhost:8000/audio/2_5.mp3" ++ "?v=" ++
        toString (versionOf [("2_5", 3)] (mkAyah "2_5" none).id) ∧
    (∀ p ∈ ([("9_9", 3)] : VersionCache), p.1 ≠ "2_5") ∧
    versionOf [("9_9", 3)] "2_5" = 0 :=
  ⟨by decide, by decide,
    audio_src_lb_version.1 _ (mkAyah "2_5" none) _ (by decide) (by decide),
    by decide,
    audio_src_lb_version.2 [("9_9", 3)] "2_5" (by decide)⟩

/-- Which of the three action buttons a table row renders. -/
structure RowActions where
  edit : Bool
  autoSplit : Bool
  approve : Bool
deriving DecidableEq

/-- The JavaScript test !ayah.matches restricted to boolean-or-null
values of the matches field (null is falsy, so !null is true, but the
code only evaluates it after a non-null check). -/
def notMatches : Option Bool → Bool
  | some b => !b
  | none => true

/-- Actions cell of the App.tsx AyahTable: Edit whenever matches is
non-null, Auto-Split unconditionally, Approve when matches is non-null
and false. -/
def rowActionsApp (m : Option Bool) : RowActions :=
  ⟨m.isSome, true, m.isSome && notMatches m⟩

/-- Actions cell of the LoadingButton.tsx AyahTable: Edit and Approve
when matches is non-null and false, Auto-Split when matches is null. -/
def rowActionsLB (m : Option Bool) : RowActions :=
  ⟨m.isSome && notMatches m, m.isNone, m.isSome && notMatches m⟩

/-- C3 counterexample: in the App.tsx table a row with matches = true
renders the Edit and Auto-Split buttons, while the claim says such a row
renders none of the three. -/
theorem row_actions_counterexample :
    rowActionsApp (some true) = ⟨true, true, false⟩ ∧
    rowActionsApp (some true) ≠ ⟨false, false, false⟩ := by
  decide

/-- C3 (amended): the LoadingButton.tsx table renders exactly as the
claim states (null: only Auto-Split; false: exactly Edit and Approve;
true: none); the App.tsx table instead always renders Auto-Split and
renders Edit for every non-null matches value. -/
theorem row_actions_by_matches :
    rowActionsLB none = ⟨false, true, false⟩ ∧
    rowActionsLB (some false) = ⟨true, false, true⟩ ∧
    rowActionsLB (some true) = ⟨false, false, false⟩ ∧
    rowActionsApp none = ⟨false, true, false⟩ ∧
    rowActionsApp (some false) = ⟨true, true, true⟩ ∧
    rowActionsApp (some true) = ⟨true, true, false⟩ := by
  decide

/-- State held by the useAyahs hook: the fetched collection, the loading
flag and the error string. -/
structure AyahsState where
  ayahs : List Ayah
  isLoading : Bool
  error : Option String
deriving DecidableEq

/-- Outcome of one GET /ayahs request: a successful JSON body, a
response with ok = false (the code then throws Error with the fixed
message), or some other thrown value (an Error carrying a message, or a
non-Error, modelled as none). -/
inductive FetchResult where
  | ok (data : List Ayah)
  | httpError
  | thrown (msg : Option String)
deriving DecidableEq

def FetchResult.isFailure : FetchResult → Bool
  | .ok _ => false
  | .httpError => true
  | .thrown _ => true

/-- The string the catch branch stores for a failure: the thrown Error's
message ("Failed to fetch ayahs" for a non-ok response), or the fallback
"An error occurred" for a non-Error value.  The ok constructor never
reaches the catch branch; its value here is unused. -/
def FetchResult.errorMessage : FetchResult → String
  | .ok _ => ""
  | .httpError => "Failed to fetch ayahs"
  | .thrown msg => msg.getD "An error occurred"

/-- Result of one fetchAyahs invocation: the state after the call and
whether setIsLoading(true) was invoked during it. -/
structure FetchRun where
  state : AyahsState
  setLoadingTrue : Bool
deriving DecidableEq

/-- One run of fetchAyahs, parametrised by the collection length the
callback closure observes: setIsLoading(true) fires when that length is
zero, a successful response replaces the collection, a failure stores
the error message and leaves the collection alone, and the finally
branch always ends with setIsLoading(false). -/
def fetchAyahsRun (capturedLen : Nat) (s : AyahsState) (r : FetchResult) : FetchRun :=
  let s1 := if capturedLen == 0 then { s with isLoading := true } else s
  let s2 :=
    match r with
    | .ok data => { s1 with ayahs := data }
    | .httpError => { s1 with error := some FetchResult.httpError.errorMessage }
    | .thrown msg => { s1 with error := some ((FetchResult.thrown msg).errorMessage) }
  { state := { s2 with isLoading := false }, setLoadingTrue := capturedLen == 0 }

/-- fetchAyahs of the LoadingButton.tsx variant: its useCallback lists
ayahs.length as a dependency, so the closure observes the current
collection length. -/
def fetchAyahsLB (s : AyahsState) (r : FetchResult) : FetchRun :=
  fetchAyahsRun s.ayahs.length s r

/-- fetchAyahs of the App.tsx variant: its useCallback has an empty
dependency list, so the memoised closure forever observes the initial
empty collection, of length 0. -/
def fetchAyahsApp (s : AyahsState) (r : FetchResult) : FetchRun :=
  fetchAyahsRun 0 s r

/-- C4 counterexample: a failed refetch over an already non-empty
collection still sets the error string, while the claim says the error
string is set only on the very first (empty-collection) load. -/
theorem fetch_error_counterexample :
    (fetchAyahsLB ⟨[mkAyah "2_5" (some false)], false, none⟩
        FetchResult.httpError).state.error = some "Failed to fetch ayahs" ∧
    [mkAyah "2_5" (some false)] ≠ ([] : List Ayah) := by
  decide

/-- C4 (amended): every failed fetch, first load or background refetch
alike and in both variants, stores the failure's message in the error
string and leaves the previously fetched collection unchanged; for a
non-ok HTTP response that message is the non-empty string
"Failed to fetch ayahs". -/
theorem fetch_failure_sets_error (capturedLen : Nat) (s : AyahsState)
    (r : FetchResult) (hfail : r.isFailure = true) :
    (fetchAyahsRun capturedLen s r).state.error = some r.errorMessage ∧
    (fetchAyahsRun capturedLen s r).state.ayahs = s.ayahs ∧
    FetchResult.httpError.errorMessage ≠ "" := by
  refine ⟨?_, ?_, by decide⟩ <;>
    cases r <;>
      simp [FetchResult.isFailure] at hfail ⊢ <;>
        simp [fetchAyahsRun] <;> split <;> rfl

theorem fetch_failure_sets_error_witness :
    FetchResult.httpError.isFailure = true ∧
    ((fetchAyahsRun 1 ⟨[mkAyah "2_5" (some false)], false, none⟩
        FetchResult.httpError).state.error =
          some FetchResult.httpError.errorMessage ∧
      (fetchAyahsRun 1 ⟨[mkAyah "2_5" (some false)], false, none⟩
          FetchResult.httpError).state.ayahs = [mkAyah "2_5" (some false)] ∧
      FetchResult.httpError.errorMessage ≠ "") :=
  ⟨by decide,
    fetch_failure_sets_error 1 ⟨[mkAyah "2_5" (some false)], false, none⟩
      FetchResult.httpError (by decide)⟩

/-- C8 counterexample: in the App.tsx variant a refetch over a non-empty
collection still invokes setIsLoading(true), because the memoised
closure observes the initial empty collection. -/
theorem loading_flag_counterexample :
    (fetchAyahsApp ⟨[mkAyah "2_5" none], false, none⟩
        (FetchResult.ok [mkAyah "2_5" none])).setLoadingTrue = true ∧
    [mkAyah "2_5" none] ≠ ([] : List Ayah) := by
  decide

/-- C8 (amended): in the LoadingButton.tsx variant the loading flag is
set during a fetch exactly when the collection held at that moment is
empty; in the App.tsx variant every invocation sets it, because the
callback with an empty dependency list forever observes the initial
empty collection. -/
theorem loading_only_when_empty (s : AyahsState) (r : FetchResult) :
    ((fetchAyahsLB s r).setLoadingTrue = true ↔ s.ayahs = []) ∧
    (fetchAyahsApp s r).setLoadingTrue = true := by
  constructor
  · simp [fetchAyahsLB, fetchAyahsRun, List.length_eq_zero]
  · rfl

/-- A message arriving on the /events stream, after JSON parsing: the
two recognised discriminators, any other well-formed message, or a
payload that fails to parse. -/
inductive PushMessage where
  | splitFinished (itemId : String)
  | splitFailed (itemId : String) (error : String)
  | otherType
  | malformed
deriving DecidableEq

/-- Observable effect of the SSE onmessage handler: how many refetches
it triggers and the text of the blocking alert it raises, if any.  The
handler touches no other state. -/
structure SSEEffect where
  refetchCount : Nat
  alertMsg : Option String
deriving DecidableEq

/-- The onmessage handler of the LoadingButton.tsx App: split_finished
triggers one refetch; split_failed raises a blocking alert naming the
item and the error and triggers no refetch; anything else, including a
parse failure, is dropped (the parse failure is only logged). -/
def handleSSEMessage : PushMessage → SSEEffect
  | .splitFinished _ => ⟨1, none⟩
  | .splitFailed itemId err =>
    ⟨0, some ("Split failed for " ++ itemId ++ ": " ++ err)⟩
  | .otherType => ⟨0, none⟩
  | .malformed => ⟨0, none⟩

/-- C5: a split_finished message triggers exactly one refetch and no
alert; a split_failed message triggers no refetch, mutates no state, and
raises a blocking alert whose text carries the reported error. -/
theorem sse_dispatch (id err : String) :
    handleSSEMessage (.splitFinished id) = ⟨1, none⟩ ∧
    (handleSSEMessage (.splitFailed id err)).refetchCount = 0 ∧
    (handleSSEMessage (.splitFailed id err)).alertMsg =
      some ("Split failed for " ++ id ++ ": " ++ err) :=
  ⟨rfl, rfl, rfl⟩

/-- The POST body and target of one /split_custom/{id} call. -/
structure CustomSplitRequest where
  itemId : String
  split_time_ms : ℚ
deriving DecidableEq

/-- handleSplitAtTime of the LoadingButton.tsx AyahTable: with no ayah
being edited it returns without a request; otherwise it posts
split_time_ms = time to the custom-split endpoint of that ayah. -/
def handleSplitAtTime (editingAyah : Option Ayah) (time : ℚ) :
    Option CustomSplitRequest :=
  match editingAyah with
  | none => none
  | some a => some ⟨a.id, time⟩

/-- Observable outcome of pressing the split-confirm button: the
custom-split request issued, if any, and whether the modal was closed. -/
structure SplitConfirm where
  request : Option CustomSplitRequest
  modalClosed : Bool
deriving DecidableEq

/-- handleSplit of EditAyahModal.tsx: with no recorded playback position
it does nothing; otherwise it submits currentTime * 1000 through
onSplit (handleSplitAtTime) and, when that call returns without
throwing (responseOk, or no ayah being edited), closes the modal.
Playback positions are modelled as exact rationals. -/
def handleSplit (editingAyah : Option Ayah) (currentTime : Option ℚ)
    (responseOk : Bool) : SplitConfirm :=
  match currentTime with
  | none => ⟨none, false⟩
  | some t =>
    match editingAyah with
    | none => ⟨none, true⟩
    | some a => ⟨handleSplitAtTime (some a) (t * 1000), responseOk⟩

/-- C6: confirming with a recorded position of t seconds submits
t * 1000 as split_time_ms for the edited item; at t = 12.345 the
submitted value is exactly the integer 12345. -/
theorem split_submits_milliseconds (a : Ayah) (t : ℚ) (ok : Bool) :
    (handleSplit (some a) (some t) ok).request = some ⟨a.id, t * 1000⟩ ∧
    (handleSplit (some a) (some (12.345 : ℚ)) ok).request =
      some ⟨a.id, (12345 : ℚ)⟩ := by
  refine ⟨rfl, ?_⟩
  have h : (12.345 : ℚ) * 1000 = (12345 : ℚ) := by norm_num
  simp [handleSplit, handleSplitAtTime, h]

/-- C9: confirming before any playback position has been reported is a
no-op: no custom-split request is issued and the modal stays open, for
any edited item and any response behaviour. -/
theorem split_confirm_null_noop (editingAyah : Option Ayah) (ok : Bool) :
    handleSplit editingAyah none ok = ⟨none, false⟩ :=
  rfl

/-- Stable insertion implementing Array.prototype.sort with a numeric
comparator: an element is placed before the first existing element the
comparator does not order strictly after it, preserving the original
order of ties, as the ECMAScript stable sort does. -/
def orderedInsertJS {α : Type} (cmp : α → α → Int) (x : α) : List α → List α
  | [] => [x]
  | y :: l => if cmp x y ≤ 0 then x :: y :: l else y :: orderedInsertJS cmp x l

/-- Insertion-sort model of Array.prototype.sort with a comparator. -/
def sortJS {α : Type} (cmp : α → α → Int) : List α → List α
  | [] => []
  | x :: l => orderedInsertJS cmp x (sortJS cmp l)

theorem orderedInsertJS_perm {α : Type} (cmp : α → α → Int) (x : α)
    (l : List α) : List.Perm (orderedInsertJS cmp x l) (x :: l) := by
  induction l with
  | nil => exact List.Perm.refl _
  | cons y t ih =>
    simp only [orderedInsertJS]
    split
    · exact List.Perm.refl _
    · exact (ih.cons y).trans (List.Perm.swap x y t)

theorem sortJS_perm {α : Type} (cmp : α → α → Int) (l : List α) :
    List.Perm (sortJS cmp l) l := by
  induction l with
  | nil => exact List.Perm.refl _
  | cons x t ih =>
    exact (orderedInsertJS_perm cmp x (sortJS cmp t)).trans (ih.cons x)

theorem orderedInsertJS_pairwise {α : Type} (cmp : α → α → Int)
    (k : α → Int) (P : α → Prop)
    (hcmp : ∀ a b, P a → P b → (cmp a b ≤ 0 ↔ k a ≤ k b))
    (x : α) (hx : P x) :
    ∀ l : List α, (∀ a ∈ l, P a) → l.Pairwise (fun a b => k a ≤ k b) →
      (orderedInsertJS cmp x l).Pairwise (fun a b => k a ≤ k b) := by
  intro l
  induction l with
  | nil =>
    intro _ _
    simp [orderedInsertJS]
  | cons y t ih =>
    intro hl hs
    have hy : P y := hl y (by simp)
    have ht : ∀ a ∈ t, P a := fun a ha => hl a (by simp [ha])
    rw [List.pairwise_cons] at hs
    simp only [orderedInsertJS]
    split
    · rename_i hc
      have hxy : k x ≤ k y := (hcmp x y hx hy).mp hc
      refine List.pairwise_cons.mpr ⟨?_, List.pairwise_cons.mpr ⟨hs.1, hs.2⟩⟩
      intro b hb
      rcases List.mem_cons.mp hb with hb | hb
      · rw [hb]; exact hxy
      · exact le_trans hxy (hs.1 b hb)
    · rename_i hc
      have hyx : k y ≤ k x := by
        have hn : ¬ k x ≤ k y := fun hle => hc ((hcmp x y hx hy).mpr hle)
        omega
      refine List.pairwise_cons.mpr ⟨?_, ih ht hs.2⟩
      intro b hb
      have hb2 : b ∈ x :: t :=
        (orderedInsertJS_perm cmp x t).mem_iff.mp hb
      rcases List.mem_cons.mp hb2 with hb2 | hb2
      · rw [hb2]; exact hyx
      · exact hs.1 b hb2

theorem sortJS_pairwise {α : Type} (cmp : α → α → Int) (k : α → Int)
    (P : α → Prop)
    (hcmp : ∀ a b, P a → P b → (cmp a b ≤ 0 ↔ k a ≤ k b)) :
    ∀ l : List α, (∀ a ∈ l, P a) →
      (sortJS cmp l).Pairwise (fun a b => k a ≤ k b) := by
  intro l
  induction l with
  | nil =>
    intro _
    simp [sortJS]
  | cons x t ih =>
    intro hl
    have hx := hl x (by simp)
    have ht : ∀ a ∈ t, P a := fun a ha => hl a (by simp [ha])
    have hsort : ∀ a ∈ sortJS cmp t, P a := fun a ha =>
      ht a ((sortJS_perm cmp t).mem_iff.mp ha)
    exact orderedInsertJS_pairwise cmp k P hcmp x hx (sortJS cmp t) hsort (ih ht)

/-- Model of collecting values through a JavaScript Set: duplicates are
dropped, the first occurrence keeping its place (SameValueZero equality,
under which NaN equals NaN, matches equality of Option Int). -/
def dedupFirstAux {α : Type} [DecidableEq α] (seen : List α) : List α → List α
  | [] => []
  | x :: l =>
    if x ∈ seen then dedupFirstAux seen l else x :: dedupFirstAux (x :: seen) l

/-- Array.from(new Set(l)). -/
def dedupFirst {α : Type} [DecidableEq α] (l : List α) : List α :=
  dedupFirstAux [] l

theorem mem_dedupFirstAux {α : Type} [DecidableEq α] (a : α) :
    ∀ (l seen : List α), a ∈ dedupFirstAux seen l ↔ a ∈ l ∧ a ∉ seen := by
  intro l
  induction l with
  | nil =>
    intro seen
    simp [dedupFirstAux]
  | cons x t ih =>
    intro seen
    simp only [dedupFirstAux]
    split
    · rename_i hx
      rw [ih seen]
      constructor
      · rintro ⟨ha, hs⟩
        exact ⟨List.mem_cons.mpr (Or.inr ha), hs⟩
      · rintro ⟨ha, hs⟩
        rcases List.mem_cons.mp ha with h | h
        · exact absurd (h ▸ hx) hs
        · exact ⟨h, hs⟩
    · rename_i hx
      rw [List.mem_cons, ih (x :: seen)]
      constructor
      · rintro (h | ⟨ha, hs⟩)
        · exact ⟨List.mem_cons.mpr (Or.inl h), h ▸ hx⟩
        · exact ⟨List.mem_cons.mpr (Or.inr ha),
            fun hc => hs (List.mem_cons.mpr (Or.inr hc))⟩
      · rintro ⟨ha, hs⟩
        rcases List.mem_cons.mp ha with h | h
        · exact Or.inl h
        · by_cases hax : a = x
          · exact Or.inl hax
          · exact Or.inr ⟨h, fun hc => (List.mem_cons.mp hc).elim hax hs⟩

theorem nodup_dedupFirstAux {α : Type} [DecidableEq α] :
    ∀ (l seen : List α), (dedupFirstAux seen l).Nodup := by
  intro l
  induction l with
  | nil =>
    intro seen
    simp [dedupFirstAux]
  | cons x t ih =>
    intro seen
    simp only [dedupFirstAux]
    split
    · exact ih seen
    · refine List.nodup_cons.mpr ⟨?_, ih (x :: seen)⟩
      intro hx
      exact ((mem_dedupFirstAux x t (x :: seen)).mp hx).2 (by simp)

/-- getSurahNumber of both App variants: parseInt of the part of the
identifier before the first underscore. -/
def getSurahNumber (ayahId : String) : Option Int :=
  jsParseInt ((splitChars '_' ayahId.data).headD [])

/-- The derived surah list of both App variants:
Array.from(new Set(ayahs.map(getSurahNumber))).sort((a, b) => a - b). -/
def surahNumbers (ayahs : List Ayah) : List (Option Int) :=
  sortJS jsSub (dedupFirst (ayahs.map (fun a => getSurahNumber a.id)))

/-- The initial-selection effect of both App variants: when no surah is
selected yet and the derived list is non-empty, the first entry of the
list becomes the selection; otherwise the selection is unchanged. -/
def initialSelectedSurah (nums : List (Option Int))
    (selectedSurah : Option (Option Int)) : Option (Option Int) :=
  match selectedSurah, nums with
  | none, x :: _ => some x
  | s, _ => s

theorem allSome_eq_map_some :
    ∀ l : List (Option Int), (∀ v ∈ l, v.isSome = true) →
      l = (l.map (fun v => v.getD 0)).map some := by
  intro l
  induction l with
  | nil => intro _; rfl
  | cons v t ih =>
    intro h
    cases v with
    | none => exact absurd (h none (by simp)) (by simp)
    | some x =>
      have ht := ih (fun w hw => h w (by simp [hw]))
      simp only [List.map_cons, Option.getD_some]
      exact congrArg (some x :: ·) ht

/-- C7: for a non-empty collection whose identifiers all parse, the
derived surah list is the duplicate-free list of the surah numbers of
the items in strictly ascending order, and with no prior selection the
initially selected surah is the smallest surah number present. -/
theorem surah_list_sorted_min_selected (ayahs : List Ayah)
    (hwf : ∀ a ∈ ayahs, (getSurahNumber a.id).isSome = true)
    (hne : ayahs ≠ []) :
    ∃ ns : List Int,
      surahNumbers ayahs = ns.map some ∧
      ns.Pairwise (fun a b => a < b) ∧
      (∀ n : Int, n ∈ ns ↔ some n ∈ ayahs.map (fun a => getSurahNumber a.id)) ∧
      ∃ m : Int, initialSelectedSurah (surahNumbers ayahs) none = some (some m) ∧
        m ∈ ns ∧ ∀ n ∈ ns, m ≤ n := by
  set D := dedupFirst (ayahs.map (fun a => getSurahNumber a.id)) with hD
  have hperm : List.Perm (surahNumbers ayahs) D := sortJS_perm jsSub D
  have hmemD : ∀ v, v ∈ D ↔ v ∈ ayahs.map (fun a => getSurahNumber a.id) := by
    intro v
    rw [hD, dedupFirst, mem_dedupFirstAux]
    simp
  have hallD : ∀ v ∈ D, v.isSome = true := by
    intro v hv
    rcases List.mem_map.mp ((hmemD v).mp hv) with ⟨a, ha, rfl⟩
    exact hwf a ha
  have hallL : ∀ v ∈ surahNumbers ayahs, v.isSome = true := fun v hv =>
    hallD v (hperm.mem_iff.mp hv)
  have hcmp : ∀ a b : Option Int, a.isSome = true → b.isSome = true →
      (jsSub a b ≤ 0 ↔ a.getD 0 ≤ b.getD 0) := by
    intro a b ha hb
    cases a with
    | none => simp at ha
    | some x =>
      cases b with
      | none => simp at hb
      | some y =>
        simp only [jsSub, Option.getD_some]
        omega
  have hpw : (surahNumbers ayahs).Pairwise
      (fun a b => a.getD 0 ≤ b.getD 0) :=
    sortJS_pairwise jsSub (fun v => v.getD 0) (fun v => v.isSome = true)
      hcmp D hallD
  have hnodupL : (surahNumbers ayahs).Nodup :=
    hperm.symm.nodup (nodup_dedupFirstAux _ _)
  refine ⟨(surahNumbers ayahs).map (fun v => v.getD 0),
    allSome_eq_map_some _ hallL, ?_, ?_, ?_⟩
  · have h1 : ((surahNumbers ayahs).map (fun v => v.getD 0)).Pairwise
        (fun a b => a ≤ b) := List.pairwise_map.mpr hpw
    have h2 : ((surahNumbers ayahs).map (fun v => v.getD 0)).Nodup := by
      have := allSome_eq_map_some _ hallL
      exact List.Nodup.of_map some (this ▸ hnodupL)
    exact (h1.and h2).imp (fun h => lt_of_le_of_ne h.1 h.2)
  · intro n
    constructor
    · intro hn
      rcases List.mem_map.mp hn with ⟨v, hv, rfl⟩
      have hvs := hallL v hv
      cases v with
      | none => simp at hvs
      | some x =>
        simpa using (hmemD (some x)).mp (hperm.mem_iff.mp hv)
    · intro hn
      have hvL : some n ∈ surahNumbers ayahs :=
        hperm.mem_iff.mpr ((hmemD (some n)).mpr hn)
      exact List.mem_map.mpr ⟨some n, hvL, rfl⟩
  · have hLne : surahNumbers ayahs ≠ [] := by
      intro hnil
      have hDnil : D = [] := (hnil ▸ hperm).symm.eq_nil
      cases ayahs with
      | nil => exact hne rfl
      | cons a rest =>
        have : getSurahNumber a.id ∈ D :=
          (hmemD _).mpr (List.mem_map.mpr ⟨a, by simp, rfl⟩)
        rw [hDnil] at this
        simp at this
    obtain ⟨v, tl, hvt⟩ : ∃ v tl, surahNumbers ayahs = v :: tl := by
      cases hL : surahNumbers ayahs with
      | nil => exact absurd hL hLne
      | cons v tl => exact ⟨v, tl, rfl⟩
    have hvs := hallL v (by rw [hvt]; simp)
    cases v with
    | none => simp at hvs
    | some m =>
      refine ⟨m, by rw [hvt]; rfl, ?_, ?_⟩
      · exact List.mem_map.mpr ⟨some m, by rw [hvt]; simp, rfl⟩
      · intro n hn
        rcases List.mem_map.mp hn with ⟨w, hw, rfl⟩
        rw [hvt] at hw hpw
        rcases List.mem_cons.mp hw with hw | hw
        · rw [hw]; simp
        · have := (List.pairwise_cons.mp hpw).1 w hw
          simpa using this

/-- Concrete collection exercising the surah-list derivation. -/
def demoAyahs : List Ayah :=
  [mkAyah "2_1" (some true), mkAyah "1_1" (some false), mkAyah "3_1" none]

theorem surah_list_sorted_min_selected_witness :
    (∀ a ∈ demoAyahs, (getSurahNumber a.id).isSome = true) ∧
    demoAyahs ≠ [] ∧
    (∃ ns : List Int,
      surahNumbers demoAyahs = ns.map some ∧
      ns.Pairwise (fun a b => a < b) ∧
      (∀ n : Int, n ∈ ns ↔
        some n ∈ demoAyahs.map (fun a => getSurahNumber a.id)) ∧
      ∃ m : Int,
        initialSelectedSurah (surahNumbers demoAyahs) none = some (some m) ∧
        m ∈ ns ∧ ∀ n ∈ ns, m ≤ n) ∧
    surahNumbers demoAyahs = [some 1, some 2, some 3] ∧
    initialSelectedSurah (surahNumbers demoAyahs) none = some (some 1) :=
  ⟨by decide, by decide,
    surah_list_sorted_min_selected demoAyahs (by decide) (by decide),
    by decide, by decide⟩

/-- Result of parseAyahId: the surah and ayah numeric components. -/
structure AyahIdParts where
  surah : Option Int
  ayah : Option Int
deriving DecidableEq

/-- parseAyahId of both App variants: the identifier is split on
underscores; the surah component is parseInt of the first part and the
ayah component is parseInt of the second part when one exists, 0
otherwise. -/
def parseAyahId (ayahId : String) : AyahIdParts :=
  let parts := splitChars '_' ayahId.data
  ⟨jsParseInt (parts.headD []),
    if parts.length > 1 then jsParseInt (parts.getD 1 []) else some 0⟩

/-- The row comparator of both App variants: surah components are
compared first, ayah components break the tie. -/
def ayahCompare (a b : Ayah) : Int :=
  let ia := parseAyahId a.id
  let ib := parseAyahId b.id
  if jsNeq ia.surah ib.surah then jsSub ia.surah ib.surah
  else jsSub ia.ayah ib.ayah

/-- filteredAyahs of both App variants: the items whose surah number is
strictly equal to the selected surah, sorted with ayahCompare. -/
def filteredAyahs (ayahs : List Ayah) (selectedSurah : Option Int) : List Ayah :=
  sortJS ayahCompare
    (ayahs.filter (fun a => jsStrictEqNum (getSurahNumber a.id) selectedSurah))

theorem jsStrictEqNum_some (x : Option Int) (n : Int) :
    jsStrictEqNum x (some n) = (x == some n) := by
  cases x <;> rfl

theorem getSurahNumber_eq_parts (ayahId : String) :
    getSurahNumber ayahId = (parseAyahId ayahId).surah := rfl

/-- C10: when every identifier's ayah component parses, the rows
displayed for a selected surah are exactly the items whose leading
numeric component strictly equals that surah, arranged in ascending
order of the ayah component; an identifier without an underscore has
ayah component 0. -/
theorem table_rows_filtered_sorted (ayahs : List Ayah) (n : Int)
    (hwf : ∀ a ∈ ayahs, ((parseAyahId a.id).ayah).isSome = true) :
    List.Perm (filteredAyahs ayahs (some n))
      (ayahs.filter (fun a => (parseAyahId a.id).surah == some n)) ∧
    (filteredAyahs ayahs (some n)).Pairwise
      (fun a b =>
        ((parseAyahId a.id).ayah).getD 0 ≤ ((parseAyahId b.id).ayah).getD 0) ∧
    (∀ s : String, (splitChars '_' s.data).length = 1 →
      (parseAyahId s).ayah = some 0) := by
  have hfilter : ayahs.filter (fun a => jsStrictEqNum (getSurahNumber a.id) (some n)) =
      ayahs.filter (fun a => (parseAyahId a.id).surah == some n) := by
    apply List.filter_congr
    intro a _
    rw [jsStrictEqNum_some, getSurahNumber_eq_parts]
  refine ⟨?_, ?_, ?_⟩
  · rw [filteredAyahs, hfilter]
    exact sortJS_perm _ _
  · rw [filteredAyahs, hfilter]
    apply sortJS_pairwise ayahCompare
      (fun a => ((parseAyahId a.id).ayah).getD 0)
      (fun a => (parseAyahId a.id).surah = some n ∧
        ((parseAyahId a.id).ayah).isSome = true)
    · intro a b ha hb
      rw [ayahCompare]
      rw [ha.1, hb.1]
      have hneq : jsNeq (some n) (some n) = false := by simp [jsNeq]
      rw [hneq]
      simp only [Bool.false_eq_true, if_false]
      rcases Option.isSome_iff_exists.mp ha.2 with ⟨x, hx⟩
      rcases Option.isSome_iff_exists.mp hb.2 with ⟨y, hy⟩
      rw [hx, hy]
      simp only [jsSub, Option.getD_some]
      omega
    · intro a ha
      have h1 := List.mem_filter.mp ha
      refine ⟨?_, hwf a h1.1⟩
      have := h1.2
      simpa using this
  · intro s h
    simp only [parseAyahId, h]
    rfl

/-- Concrete collection exercising the table filter and sort; the bare
identifier "2" exercises the missing-underscore case. -/
def demoRows : List Ayah :=
  [mkAyah "2_3" (some true), mkAyah "1_1" none,
    mkAyah "2_1" (some false), mkAyah "2" none]

theorem table_rows_filtered_sorted_witness :
    (∀ a ∈ demoRows, ((parseAyahId a.id).ayah).isSome = true) ∧
    (List.Perm (filteredAyahs demoRows (some 2))
      (demoRows.filter (fun a => (parseAyahId a.id).surah == some 2)) ∧
    (filteredAyahs demoRows (some 2)).Pairwise
      (fun a b =>
        ((parseAyahId a.id).ayah).getD 0 ≤ ((parseAyahId b.id).ayah).getD 0) ∧
    (∀ s : String, (splitChars '_' s.data).length = 1 →
      (parseAyahId s).ayah = some 0)) ∧
    filteredAyahs demoRows (some 2) =
      [mkAyah "2" none, mkAyah "2_1" (some false), mkAyah "2_3" (some true)] :=
  ⟨by decide, table_rows_filtered_sorted demoRows 2 (by decide), by decide⟩

end QbAudio
